import Mathlib

/-!
Verification of the Razoom-Calculate pricing engine.

The Python sources are shallowly embedded: Python `float` arithmetic is
modelled by exact rationals (`ℚ`), Python `int` by `ℤ`, `x // y` by
`⌊x / y⌋`, `x % y` by `x - y * ⌊x / y⌋`, `int(x)` by truncation toward
zero, and `round(x)` by round-half-to-even.  A dynamically typed argument
that may be non-numeric is modelled as `Option ℚ` (`none` = a value whose
use raises `TypeError`/`ValueError` inside the guarded region).  Where a
method catches an exception, logs and returns a value, the model returns
that value; where a method catches, logs and falls off the end (implicit
`None`), the model returns a dedicated `none`-like constructor.
-/

namespace Razoom

/-- Python `int(x)` on a finite float: truncation toward zero. -/
def pyTrunc (q : ℚ) : ℤ := if 0 ≤ q then ⌊q⌋ else -⌊-q⌋

/-- Python `round(x)` (one-argument form): nearest integer, ties to even. -/
def pyRound (q : ℚ) : ℤ :=
  if q - ⌊q⌋ < 1/2 then ⌊q⌋
  else if q - ⌊q⌋ > 1/2 then ⌊q⌋ + 1
  else if Even ⌊q⌋ then ⌊q⌋ else ⌊q⌋ + 1

/-!
## `materials.py`, class `Interpolation` — the interpolation primitive

`Interpolation.get_interpolation(point, lower_point, bigger_point)`
(lines 570-613 of `materials.py`).  Points are `[x, y]` pairs; the `x`
coordinates are integer-truncated by the code (`int(...)`) before use, so
they are embedded as `ℤ` (the claims apply it to integer coordinates).
The guard `lower_point == bigger_point` is Python list equality, i.e.
equality of both components.  If the points differ but share the same
x-coordinate, the Python code raises an uncaught `ZeroDivisionError`
(only `ValueError` is caught); that case is outside every claim, and the
model's division-by-zero junk value is never relied upon.
-/

def get_interpolation (point : ℤ) (lower_point bigger_point : ℤ × ℚ) : ℚ :=
  if lower_point = bigger_point then lower_point.2
  else
    let lower_diff : ℚ :=
      ((|point - lower_point.1| : ℤ) : ℚ) /
        ((|bigger_point.1 - lower_point.1| : ℤ) : ℚ)
    let bigger_diff : ℚ :=
      ((|point - bigger_point.1| : ℤ) : ℚ) /
        ((|bigger_point.1 - lower_point.1| : ℤ) : ℚ)
    lower_diff * bigger_point.2 + bigger_diff * lower_point.2

/-!
## `calculations.py`, class `RatioArea`

`get_linear_ratio` (lines 41-69) and `get_polynomial_ratio` (lines
71-99).  A non-numeric `area` argument makes the very first comparison
`area <= self.area_min` raise `TypeError`, which both methods catch and
log; the linear method then executes `return 1.0`, while the quadratic
method's handler has no `return` statement, so the method returns
`None`.  Result type `Option ℚ`: `some r` is a returned float, `none` is
Python `None`.
-/

structure RatioArea where
  area_min : ℚ
  area_max : ℚ
  ratio_max : ℚ
  ratio_min : ℚ := 1

def get_linear_ratio (s : RatioArea) (area : Option ℚ) : Option ℚ :=
  match area with
  | none => some 1
  | some a =>
    if a ≤ s.area_min then some s.ratio_min
    else if a ≥ s.area_max then some s.ratio_max
    else some ((((a - s.area_min) * |s.ratio_max - s.ratio_min|) /
      (s.area_max - s.area_min)) + s.ratio_min)

def get_polynomial_ratio (s : RatioArea) (area : Option ℚ) : Option ℚ :=
  match area with
  | none => none
  | some a =>
    if a ≤ s.area_min then some s.ratio_min
    else if a ≥ s.area_max then some s.ratio_max
    else some (((s.ratio_max - s.ratio_min) / ((s.area_max - s.area_min) ^ 2)) *
      ((a - s.area_min) ^ 2) + s.ratio_min)

/-!
## `main.py`, `App.round_result` (lines 157-171)

`round(cost/50)` returns an `int`; multiplying by `50` stays `int`; the
outer `int(...)` is the identity there.  The final branch is `int(cost)`,
plain truncation.
-/

def round_result (cost : ℚ) : ℤ :=
  if cost ≥ 800 then pyRound (cost / 50) * 50
  else if 250 ≤ cost ∧ cost < 800 then pyRound (cost / 10) * 10
  else if 85 ≤ cost ∧ cost < 250 then pyRound (cost / 5) * 5
  else pyTrunc cost

/-- Rounding to the nearest multiple of `m`, as the spec words it
("round to the nearest 50/10/5"); ties follow Python `round`
(half-to-even), the only "nearest" rule the program uses. -/
def nearestMultiple (m : ℤ) (cost : ℚ) : ℤ := pyRound (cost / m) * m

/-- The tiered rounding policy exactly as the claim states it. -/
def roundPolicySpec (cost : ℚ) : ℤ :=
  if 800 ≤ cost then nearestMultiple 50 cost
  else if 250 ≤ cost then nearestMultiple 10 cost
  else if 85 ≤ cost then nearestMultiple 5 cost
  else pyTrunc cost

/-!
## `main.py`, `PersonalCalculateTab.main_calculation` (lines 1068-1124)

The method reads ratio attributes prepared by
`get_ratio_for_calculation` and combines them.  The combination itself is
embedded below; the ratios are the structure's fields, in the exact order
and grouping of the Python expression (lines 1091-1101).  The per-unit
price is rounded by `self.round_method` = `App.round_result`, and the
order total is `round_method(main_cost) * int(spin_number.get()) +
cost_design` (lines 1115-1116).
-/

structure RatioSelection where
  laser : ℚ
  rotation : ℚ
  different_layouts : ℚ
  timing : ℚ
  packing : ℚ
  thermal_graving : ℚ
  oversize : ℚ
  numbering : ℚ
  attention : ℚ
  hand_job : ℚ
  docking : ℚ
  difficult : ℚ
  depth : ℚ
  size : ℚ
  taxation_ao : ℚ
  taxation_ip : ℚ
  many_items : ℚ
  one_set : ℚ
  discount : ℚ

def main_cost (additional_cost : ℚ) (cost : ℤ) (r : RatioSelection) : ℚ :=
  (additional_cost + (cost * (
      r.laser * r.rotation *
      r.different_layouts * r.timing *
      r.packing * r.thermal_graving *
      r.oversize * r.numbering *
      r.attention * r.hand_job *
      r.docking * r.difficult *
      r.depth * r.size)))
    * r.taxation_ao * r.taxation_ip *
    r.many_items * r.one_set *
    r.discount

/-- Per-unit rounded price and order total (`main_calculation` lines
1103-1116, with `cost_design` the layout surcharge). -/
def calc_totals (additional_cost : ℚ) (cost : ℤ) (r : RatioSelection)
    (number : ℤ) (cost_design : ℚ) : ℤ × ℚ :=
  (round_result (main_cost additional_cost cost r),
   (round_result (main_cost additional_cost cost r) : ℚ) * number + cost_design)

/-- Operator discount ratio (`get_ratio_for_calculation` line 1355):
`1 - float(spin_discount.get()) / 100`. -/
def ratio_discount (d : ℚ) : ℚ := 1 - d / 100

/-- Scenario C of the spec: every multiplicative ratio is 1.  Quantity 1
selects the `ratio_many_items = 1` branch (line 1313-1314), gang size 1
the `ratio_one_set = 1` branch (line 1322-1323), and a 0% discount gives
` ratio_discount 0 = 1` (line 1355). -/
def scenarioC : RatioSelection :=
  ⟨1, 1, 1, 1, 1, 1, 1, 1, 1, 1, 1, 1, 1, 1, 1, 1, 1, 1, ratio_discount 0⟩

/-!
## `materials.py`, class `ContainerPacking` (lines 274-377)

`figure_1` (lines 308-337) and `figure_2` (lines 339-370).  The
constructor sets `w_big = sheetWidth * 0.9`, `h_big = sheetHeight`
(lines 300-301); both are passed here explicitly together with the item
`width`/`height`.  `//` on floats is embedded as `⌊· / ·⌋`; the
`int(rows * cols)` coercions are exact because both factors are
integer-valued.  A `ZeroDivisionError` (a zero item dimension) is caught
by the method, which logs and sets the running total to 0; with a zero
dimension the divisions happen before any `total` increment, so the
whole result is 0 — embedded by the leading guard.  Each call site
constructs a fresh object, so the running totals start at 0.
-/

def figure_1 (w_big h_big width height : ℚ) : ℤ :=
  if width = 0 ∨ height = 0 then 0
  else
    let figure_per_rows : ℤ := ⌊w_big / width⌋
    let figure_per_columns : ℤ := ⌊h_big / height⌋
    let total_1 : ℤ := figure_per_rows * figure_per_columns
    if w_big - (figure_per_rows * width) ≥ height then
      total_1 + ⌊(w_big - (figure_per_rows * width)) / height⌋ * ⌊h_big / width⌋
    else total_1

def figure_2 (w_big h_big width height : ℚ) : ℤ :=
  if height = 0 ∨ width = 0 then 0
  else
    let figure_per_rows : ℤ := ⌊w_big / height⌋
    let figure_per_columns : ℤ := ⌊h_big / width⌋
    let total_2 : ℤ := figure_per_rows * figure_per_columns
    if w_big - (figure_per_rows * height) ≥ width then
      total_2 + ⌊(h_big - (figure_per_rows * height)) / width⌋ * ⌊h_big / height⌋
    else total_2

/-- The second packing orientation as the claim describes it: with the
item placed rotated (`w' = height`, `h' = width`), the leftover band is
packed from the remaining usable **width**
`w_big - rows * height`, contributing
`⌊(w_big - rows*height)/width⌋ * ⌊h_big/height⌋`. -/
def figure_2_claimed (w_big h_big width height : ℚ) : ℤ :=
  if height = 0 ∨ width = 0 then 0
  else
    let figure_per_rows : ℤ := ⌊w_big / height⌋
    let figure_per_columns : ℤ := ⌊h_big / width⌋
    let total_2 : ℤ := figure_per_rows * figure_per_columns
    if w_big - (figure_per_rows * height) ≥ width then
      total_2 + ⌊(w_big - (figure_per_rows * height)) / width⌋ * ⌊h_big / height⌋
    else total_2

/-!
## `calculations.py`, class `DeepEngraving` (lines 101-176)

`depth_calculate(depth)` reads `config['MAIN'][material_name]`, splits it
on `", "` and float-parses every field; it also float-parses `depth`.
`KeyError` (material absent), `TypeError` and `ValueError` (non-numeric
field or depth) are caught and logged, after which the method falls off
the end and implicitly returns `None`.  The input is embedded
post-lookup: `profile = none` models a missing material (`KeyError`),
`some fields` the split string, where a `none` field is one whose
`float(x)` raises `ValueError`; `depth = none` models a non-numeric
depth argument.  An `IndexError` (profile with fewer than two fields) or
`ZeroDivisionError` (zero step depth) inside the `else:` block is *not*
caught and propagates — constructor `raised`.
-/

inductive PyResult (α : Type) where
  | raised : PyResult α
  | returnedNone : PyResult α
  | val : α → PyResult α
deriving DecidableEq

def depth_calculate : Option (List (Option ℚ)) → Option ℚ →
    PyResult (String × ℚ × List ℚ)
  | none, _ => .returnedNone
  | some fields, depth =>
    if fields.any (fun f => f.isNone) then .returnedNone
    else
      match depth with
      | none => .returnedNone
      | some d =>
        match fields.filterMap id with
        | a :: b :: _ =>
          if a = 0 then .raised
          else if d ≤ a then
            .val ("Смена фокуса не требуется!", ((pyTrunc ((d / a) * b) : ℤ) : ℚ), [])
          else
            let count_changes : ℤ := ⌊d / a⌋
            let remnant : ℚ := d - a * ⌊d / a⌋
            if remnant = 0 then
              .val ("Требуется смена фокуса!",
                (count_changes : ℚ) * b + ((pyTrunc ((remnant / a) * b) : ℤ) : ℚ),
                [((count_changes - 1 : ℤ) : ℚ), b, a, ((pyTrunc b : ℤ) : ℚ)])
            else
              .val ("Требуется смена фокуса!",
                (count_changes : ℚ) * b + ((pyTrunc ((remnant / a) * b) : ℤ) : ℚ),
                [(count_changes : ℚ), b, a, ((pyTrunc ((remnant / a) * b) : ℤ) : ℚ)])
        | _ => .raised

/-!
## `materials.py`, class `Interpolation` — cost grid resolution

A cost-matrix section `['COSTS']` maps key strings `"label, w, h"` to
comma-separated price strings.  Keys are embedded pre-split (`RowKey`),
prices pre-parsed (`[int(x) for x in v.split(', ')]` yields `List ℤ`);
a grid is the section's insertion-ordered pairs, as `configparser`
iterates them.

`get_keys` (lines 500-568): a first loop finds the rows of globally
minimal/maximal area starting from the sentinels
`['', '1_000_000', '1_000_000']` and `['', '0', '0']` (ties: the later
row wins, `<=`/`>=`); a second loop breaks on an exact area match and
otherwise tightens the bounds towards the query area.

`get_cost` (lines 433-498): resolves the quantity ladder indices
(`lower_index` starts at `0`, `bigger_index` at `-1`; on a 7-price row —
the well-formedness invariant — index `-1` denotes index `6`, which the
embedding uses directly), then interpolates on the quantity axis and,
for a pair of keys, a second time on the area axis.
-/

structure RowKey where
  label : String
  w : ℤ
  h : ℤ
deriving DecidableEq

def keyArea (k : RowKey) : ℤ := k.w * k.h

abbrev CostGrid : Type := List (RowKey × List ℤ)

def lowerInitKey : RowKey := ⟨"", 1000000, 1000000⟩

def biggerInitKey : RowKey := ⟨"", 0, 0⟩

/-- One step of the first `get_keys` loop (lines 517-524). -/
def boundsInitStep (p : RowKey × RowKey) (k : RowKey) : RowKey × RowKey :=
  (if keyArea k ≤ keyArea p.1 then k else p.1,
   if keyArea k ≥ keyArea p.2 then k else p.2)

def boundsInit (g : CostGrid) : RowKey × RowKey :=
  g.foldl (fun p kv => boundsInitStep p kv.1) (lowerInitKey, biggerInitKey)

/-- Lower-bound update of the second `get_keys` loop (lines 541-544). -/
def lowStep (a : ℤ) (lk : RowKey) (kv : RowKey × List ℤ) : RowKey :=
  if keyArea kv.1 < a ∧ keyArea lk ≤ keyArea kv.1 then kv.1 else lk

/-- Upper-bound update of the second `get_keys` loop (lines 545-549). -/
def highStep (a : ℤ) (bk : RowKey) (kv : RowKey × List ℤ) : RowKey :=
  if a ≤ keyArea kv.1 ∧ keyArea kv.1 ≤ keyArea bk then kv.1 else bk

/-- The second `get_keys` loop (lines 531-549), with its exact-match
`break`: returns `(key_get_point, lower_key, bigger_key)`. -/
def boundsScan (a : ℤ) : List (RowKey × List ℤ) → RowKey → RowKey →
    Bool × RowKey × RowKey
  | [], lk, bk => (false, lk, bk)
  | kv :: rest, lk, bk =>
    if keyArea kv.1 = a then (true, kv.1, bk)
    else boundsScan a rest (lowStep a lk kv) (highStep a bk kv)

def get_keys (g : CostGrid) (width height : ℤ) : RowKey ⊕ (RowKey × RowKey) :=
  let p := boundsInit g
  let a := width * height
  match boundsScan a g p.1 p.2 with
  | (true, lk, _) => Sum.inl lk
  | (false, lk, bk) => if lk = bk then Sum.inl lk else Sum.inr (lk, bk)

def numbering_list : List ℤ := [1, 5, 15, 50, 150, 500, 1000]

/-- One step of the `lower_index`/`bigger_index` scan of `get_cost`
(lines 453-457); both conditions read the indices from before the
step. -/
def indexStep (num : ℤ) (p : ℕ × ℕ) (i : ℕ) : ℕ × ℕ :=
  (if numbering_list.getD p.1 0 ≤ numbering_list.getD i 0 ∧
      numbering_list.getD i 0 ≤ num then i else p.1,
   if numbering_list.getD p.2 0 ≥ numbering_list.getD i 0 ∧
      numbering_list.getD i 0 ≥ num then i else p.2)

def quantity_bounds (num : ℤ) : ℕ × ℕ :=
  (List.range 7).foldl (indexStep num) (0, 6)

/-- `temp_cost_config[key]`: the configparser section lookup, on the
insertion-ordered pairs (keys are unique in an INI section). -/
def lookup_costs (g : CostGrid) (k : RowKey) : List ℤ :=
  match g.find? (fun kv => decide (kv.1 = k)) with
  | some kv => kv.2
  | none => []

/-- Quantity-axis interpolation of one row's prices, exactly the
`get_interpolation` call `get_cost` makes for a single row
(lines 465-469 / 479-488). -/
def row_price_at (prices : List ℤ) (num : ℤ) : ℚ :=
  get_interpolation num
    (numbering_list.getD (quantity_bounds num).1 0,
      ((prices.getD (quantity_bounds num).1 0 : ℤ) : ℚ))
    (numbering_list.getD (quantity_bounds num).2 0,
      ((prices.getD (quantity_bounds num).2 0 : ℤ) : ℚ))

def get_cost (g : CostGrid) (height width : ℤ) (num : ℤ) : ℚ :=
  match get_keys g height width with
  | Sum.inl k => row_price_at (lookup_costs g k) num
  | Sum.inr (lk, bk) =>
    let lower_cost := row_price_at (lookup_costs g lk) num
    let bigger_cost := row_price_at (lookup_costs g bk) num
    get_interpolation (width * height)
      (keyArea lk, lower_cost) (keyArea bk, bigger_cost)

/-- Well-formedness of a cost grid, per the data model: every row
carries exactly 7 prices (one per quantity-ladder rung), and the grid is
keyed by nominal area — row areas are pairwise distinct. -/
def WellFormedGrid (g : CostGrid) : Prop :=
  (∀ kv ∈ g, (kv : RowKey × List ℤ).2.length = 7) ∧
    (g.map (fun kv => keyArea kv.1)).Nodup

instance (g : CostGrid) : Decidable (WellFormedGrid g) := by
  unfold WellFormedGrid
  exact instDecidableAnd

/-- The two-stage bilinear reference computation the claim describes:
interpolate both bounding rows on the quantity axis at `num`, then
interpolate on the area axis at the query area. -/
def bilinear_reference (g : CostGrid) (kl kb : RowKey) (a num : ℤ) : ℚ :=
  get_interpolation a
    (keyArea kl, row_price_at (lookup_costs g kl) num)
    (keyArea kb, row_price_at (lookup_costs g kb) num)

/-!
## `bmp_read.py`, class `MonochromeBMP` (lines 39-129)

`_read_bmp` (lines 50-94): after the header reads, each of the `height`
pixel rows is decoded from `row_size = (width + 7) // 8` bytes followed
by `padding = (row_size + 3) // 4 * 4 - row_size` alignment bytes; a bit
is appended only while `x * 8 + bit < width`.  The pixel-array region of
the file is embedded as a byte list `data`; row `y` starts at offset
`y * (row_size + padding)` within it.  "Parsed without error" means the
file held enough bytes (otherwise `ord(b'')` raises mid-way and the
handler leaves `pixel_data` truncated).

`count_pixels` (lines 103-129) accumulates `row.count(1)` and
`row.count(0)` over the decoded rows.
-/

def bmp_row_size (width : ℕ) : ℕ := (width + 7) / 8

def bmp_padding (width : ℕ) : ℕ :=
  (bmp_row_size width + 3) / 4 * 4 - bmp_row_size width

/-- Decoding of one pixel row from its `row_size` bytes (the nested
`for x` / `for bit` loops of `_read_bmp`, lines 85-92). -/
def bmp_row_bits (width : ℕ) (bs : List ℕ) : List ℕ :=
  ((List.range bs.length).map (fun x =>
    (List.range 8).filterMap (fun bit =>
      if x * 8 + bit < width then
        some (if bs.getD x 0 &&& (1 <<< (7 - bit)) ≠ 0 then 1 else 0)
      else none))).flatten

def read_pixel_rows (width height : ℕ) (data : List ℕ) : List (List ℕ) :=
  (List.range height).map (fun y =>
    bmp_row_bits width
      ((data.drop (y * (bmp_row_size width + bmp_padding width))).take
        (bmp_row_size width)))

def count_pixels (pixel_data : List (List ℕ)) : ℕ × ℕ :=
  (pixel_data.foldl (fun acc row => acc + row.count 1) 0,
   pixel_data.foldl (fun acc row => acc + row.count 0) 0)

/-!
## Helper lemmas
-/

@[simp] lemma pyTrunc_intCast (n : ℤ) : pyTrunc (n : ℚ) = n := by
  unfold pyTrunc
  split
  · simp
  · rw [show (-(n : ℚ)) = ((-n : ℤ) : ℚ) by push_cast; ring, Int.floor_intCast]
    ring

@[simp] lemma pyTrunc_natCast (n : ℕ) : pyTrunc (n : ℚ) = n := by
  have : ((n : ℤ) : ℚ) = (n : ℚ) := by push_cast; ring
  rw [← this, pyTrunc_intCast]

@[simp] lemma pyRound_intCast (n : ℤ) : pyRound (n : ℚ) = n := by
  unfold pyRound
  norm_num

lemma floor_div_eq_zero {x y : ℚ} (hx : 0 ≤ x) (hy : 0 < y) (hxy : x < y) :
    ⌊x / y⌋ = 0 := by
  rw [Int.floor_eq_zero_iff]
  refine Set.mem_Ico.mpr ⟨div_nonneg hx hy.le, ?_⟩
  rw [div_lt_one hy]
  exact hxy

lemma quantity_bounds_rung (i : ℕ) (hi : i < 7) :
    quantity_bounds (numbering_list.getD i 0) = (i, i) := by
  interval_cases i <;> decide

lemma boundsScan_exact (a : ℤ) (kv : RowKey × List ℤ) :
    ∀ (l : List (RowKey × List ℤ)) (lk bk : RowKey),
      kv ∈ l → keyArea kv.1 = a →
      (∀ kv' ∈ l, keyArea (kv' : RowKey × List ℤ).1 = a → kv'.1 = kv.1) →
      ∃ bk', boundsScan a l lk bk = (true, kv.1, bk') := by
  intro l
  induction l with
  | nil =>
    intro lk bk hmem
    exact absurd hmem (List.not_mem_nil kv)
  | cons hd tl ih =>
    intro lk bk hmem ha huniq
    by_cases hhd : keyArea hd.1 = a
    · refine ⟨bk, ?_⟩
      unfold boundsScan
      rw [if_pos hhd, huniq hd (List.mem_cons_self hd tl) hhd]
    · unfold boundsScan
      rw [if_neg hhd]
      refine ih _ _ ?_ ha fun kv' h h' => huniq kv' (List.mem_cons_of_mem hd h) h'
      rcases List.mem_cons.mp hmem with rfl | h
      · exact absurd ha hhd
      · exact h

lemma lookup_costs_self (g : CostGrid) (kv : RowKey × List ℤ)
    (hnd : (g.map fun p => keyArea p.1).Nodup) (hmem : kv ∈ g) :
    lookup_costs g kv.1 = kv.2 := by
  induction g with
  | nil => cases hmem
  | cons hd tl ih =>
    rw [List.map_cons, List.nodup_cons] at hnd
    unfold lookup_costs
    by_cases hk : hd.1 = kv.1
    · rw [List.find?_cons_of_pos tl (decide_eq_true hk)]
      rcases List.mem_cons.mp hmem with rfl | hmem'
      · rfl
      · exact absurd (by rw [hk]; exact List.mem_map_of_mem _ hmem') hnd.1
    · rw [List.find?_cons_of_neg tl (by simpa using hk)]
      rcases List.mem_cons.mp hmem with rfl | hmem'
      · exact absurd rfl hk
      · exact ih hnd.2 hmem'

lemma boundsScan_no_exact (a : ℤ) :
    ∀ (l : List (RowKey × List ℤ)) (lk bk : RowKey),
      (∀ kv ∈ l, keyArea (kv : RowKey × List ℤ).1 ≠ a) →
      boundsScan a l lk bk =
        (false, l.foldl (lowStep a) lk, l.foldl (highStep a) bk) := by
  intro l
  induction l with
  | nil => intro lk bk _; rfl
  | cons hd tl ih =>
    intro lk bk hne
    unfold boundsScan
    rw [if_neg (hne hd (List.mem_cons_self hd tl)), List.foldl_cons,
      List.foldl_cons]
    exact ih _ _ fun kv h => hne kv (List.mem_cons_of_mem hd h)

lemma low_fold_stable (a : ℤ) (lk : RowKey) :
    ∀ (l : List (RowKey × List ℤ)),
      (∀ kv ∈ l, keyArea (kv : RowKey × List ℤ).1 < a →
        keyArea kv.1 < keyArea lk) →
      l.foldl (lowStep a) lk = lk := by
  intro l
  induction l with
  | nil => intro _; rfl
  | cons hd tl ih =>
    intro hcond
    rw [List.foldl_cons]
    have hstep : lowStep a lk hd = lk := by
      unfold lowStep
      rw [if_neg]
      rintro ⟨h1, h2⟩
      exact absurd (hcond hd (List.mem_cons_self hd tl) h1) (not_lt.mpr h2)
    rw [hstep]
    exact ih fun kv h => hcond kv (List.mem_cons_of_mem hd h)

lemma high_fold_stable (a : ℤ) (bk : RowKey) :
    ∀ (l : List (RowKey × List ℤ)),
      (∀ kv ∈ l, a ≤ keyArea (kv : RowKey × List ℤ).1 →
        keyArea bk < keyArea kv.1) →
      l.foldl (highStep a) bk = bk := by
  intro l
  induction l with
  | nil => intro _; rfl
  | cons hd tl ih =>
    intro hcond
    rw [List.foldl_cons]
    have hstep : highStep a bk hd = bk := by
      unfold highStep
      rw [if_neg]
      rintro ⟨h1, h2⟩
      exact absurd (hcond hd (List.mem_cons_self hd tl) h1) (not_lt.mpr h2)
    rw [hstep]
    exact ih fun kv h => hcond kv (List.mem_cons_of_mem hd h)

lemma low_fold_final (a : ℤ) (rl : RowKey × List ℤ) :
    ∀ (l : List (RowKey × List ℤ)) (lk : RowKey),
      rl ∈ l →
      (l.map fun p => keyArea p.1).Nodup →
      keyArea rl.1 < a →
      keyArea lk ≤ keyArea rl.1 →
      (∀ kv ∈ l, keyArea (kv : RowKey × List ℤ).1 < a →
        keyArea kv.1 ≤ keyArea rl.1) →
      l.foldl (lowStep a) lk = rl.1 := by
  intro l
  induction l with
  | nil =>
    intro lk h
    cases h
  | cons hd tl ih =>
    intro lk hmem hnd hra hlk hmax
    rw [List.map_cons, List.nodup_cons] at hnd
    rw [List.foldl_cons]
    rcases List.mem_cons.mp hmem with heq | hmem'
    · subst heq
      have hstep : lowStep a lk rl = rl.1 := by
        unfold lowStep
        rw [if_pos ⟨hra, hlk⟩]
      rw [hstep]
      apply low_fold_stable
      intro kv hkv hlt
      refine lt_of_le_of_ne (hmax kv (List.mem_cons_of_mem rl hkv) hlt) ?_
      intro heq
      exact hnd.1 (heq ▸ List.mem_map_of_mem _ hkv)
    · refine ih _ hmem' hnd.2 hra ?_
        (fun kv h h' => hmax kv (List.mem_cons_of_mem hd h) h')
      unfold lowStep
      split_ifs with h
      · exact hmax hd (List.mem_cons_self hd tl) h.1
      · exact hlk

lemma high_fold_final (a : ℤ) (rb : RowKey × List ℤ) :
    ∀ (l : List (RowKey × List ℤ)) (bk : RowKey),
      rb ∈ l →
      (l.map fun p => keyArea p.1).Nodup →
      a ≤ keyArea rb.1 →
      keyArea rb.1 ≤ keyArea bk →
      (∀ kv ∈ l, a ≤ keyArea (kv : RowKey × List ℤ).1 →
        keyArea rb.1 ≤ keyArea kv.1) →
      l.foldl (highStep a) bk = rb.1 := by
  intro l
  induction l with
  | nil =>
    intro bk h
    cases h
  | cons hd tl ih =>
    intro bk hmem hnd hra hbk hmin
    rw [List.map_cons, List.nodup_cons] at hnd
    rw [List.foldl_cons]
    rcases List.mem_cons.mp hmem with heq | hmem'
    · subst heq
      have hstep : highStep a bk rb = rb.1 := by
        unfold highStep
        rw [if_pos ⟨hra, hbk⟩]
      rw [hstep]
      apply high_fold_stable
      intro kv hkv hlt
      refine lt_of_le_of_ne (hmin kv (List.mem_cons_of_mem rb hkv) hlt) ?_
      intro heq
      exact hnd.1 (heq.symm ▸ List.mem_map_of_mem _ hkv)
    · refine ih _ hmem' hnd.2 hra ?_
        (fun kv h h' => hmin kv (List.mem_cons_of_mem hd h) h')
      unfold highStep
      split_ifs with h
      · exact hmin hd (List.mem_cons_self hd tl) h.1
      · exact hbk

lemma boundsFold_fst_le (l : List (RowKey × List ℤ)) :
    ∀ (p : RowKey × RowKey),
      keyArea (l.foldl (fun q kv => boundsInitStep q kv.1) p).1 ≤
        keyArea p.1 ∧
      ∀ kv ∈ l, keyArea (l.foldl (fun q kv => boundsInitStep q kv.1) p).1 ≤
        keyArea (kv : RowKey × List ℤ).1 := by
  induction l with
  | nil =>
    intro p
    exact ⟨le_refl _, fun kv h => absurd h (List.not_mem_nil kv)⟩
  | cons hd tl ih =>
    intro p
    rw [List.foldl_cons]
    have hstep1 : keyArea (boundsInitStep p hd.1).1 ≤ keyArea p.1 := by
      unfold boundsInitStep
      dsimp only
      split_ifs with h
      · exact h
      · exact le_refl _
    have hstep2 : keyArea (boundsInitStep p hd.1).1 ≤ keyArea hd.1 := by
      unfold boundsInitStep
      dsimp only
      split_ifs with h
      · exact le_refl _
      · exact le_of_not_le h
    refine ⟨(ih _).1.trans hstep1, ?_⟩
    intro kv hkv
    rcases List.mem_cons.mp hkv with rfl | hkv'
    · exact (ih _).1.trans hstep2
    · exact (ih _).2 kv hkv'

lemma boundsFold_snd_ge (l : List (RowKey × List ℤ)) :
    ∀ (p : RowKey × RowKey),
      keyArea p.2 ≤
        keyArea (l.foldl (fun q kv => boundsInitStep q kv.1) p).2 ∧
      ∀ kv ∈ l, keyArea (kv : RowKey × List ℤ).1 ≤
        keyArea (l.foldl (fun q kv => boundsInitStep q kv.1) p).2 := by
  induction l with
  | nil =>
    intro p
    exact ⟨le_refl _, fun kv h => absurd h (List.not_mem_nil kv)⟩
  | cons hd tl ih =>
    intro p
    rw [List.foldl_cons]
    have hstep1 : keyArea p.2 ≤ keyArea (boundsInitStep p hd.1).2 := by
      unfold boundsInitStep
      dsimp only
      split_ifs with h
      · exact h
      · exact le_refl _
    have hstep2 : keyArea hd.1 ≤ keyArea (boundsInitStep p hd.1).2 := by
      unfold boundsInitStep
      dsimp only
      split_ifs with h
      · exact le_refl _
      · exact le_of_not_le h
    refine ⟨hstep1.trans (ih _).1, ?_⟩
    intro kv hkv
    rcases List.mem_cons.mp hkv with rfl | hkv'
    · exact hstep2.trans (ih _).1
    · exact (ih _).2 kv hkv'

lemma get_keys_exact (g : CostGrid) (kv : RowKey × List ℤ) (width height : ℤ)
    (hnd : (g.map fun p => keyArea p.1).Nodup)
    (hmem : kv ∈ g) (ha : keyArea kv.1 = width * height) :
    get_keys g width height = Sum.inl kv.1 := by
  have huniq : ∀ kv' ∈ g, keyArea (kv' : RowKey × List ℤ).1 = width * height →
      kv'.1 = kv.1 := by
    intro kv' hmem' ha'
    exact congrArg Prod.fst
      (List.inj_on_of_nodup_map hnd hmem' hmem (by rw [ha', ha]))
  obtain ⟨bk', hscan⟩ :=
    boundsScan_exact (width * height) kv g (boundsInit g).1 (boundsInit g).2
      hmem ha huniq
  simp only [get_keys]
  rw [hscan]

lemma get_keys_pair (g : CostGrid) (kvl kvb : RowKey × List ℤ)
    (width height : ℤ)
    (hnd : (g.map fun p => keyArea p.1).Nodup)
    (hl : kvl ∈ g) (hb : kvb ∈ g)
    (hla : keyArea kvl.1 < width * height)
    (hba : width * height < keyArea kvb.1)
    (hnoex : ∀ kv ∈ g, keyArea (kv : RowKey × List ℤ).1 ≠ width * height)
    (hmax : ∀ kv ∈ g, keyArea (kv : RowKey × List ℤ).1 < width * height →
      keyArea kv.1 ≤ keyArea kvl.1)
    (hmin : ∀ kv ∈ g, width * height < keyArea (kv : RowKey × List ℤ).1 →
      keyArea kvb.1 ≤ keyArea kv.1) :
    get_keys g width height = Sum.inr (kvl.1, kvb.1) := by
  have hlow : g.foldl (lowStep (width * height)) (boundsInit g).1 = kvl.1 :=
    low_fold_final (width * height) kvl g (boundsInit g).1 hl hnd hla
      ((boundsFold_fst_le g _).2 kvl hl) hmax
  have hhigh : g.foldl (highStep (width * height)) (boundsInit g).2 = kvb.1 :=
    high_fold_final (width * height) kvb g (boundsInit g).2 hb hnd hba.le
      ((boundsFold_snd_ge g _).2 kvb hb)
      (fun kv h h' => hmin kv h (lt_of_le_of_ne h' (Ne.symm (hnoex kv h))))
  have hne : kvl.1 ≠ kvb.1 := by
    intro heq
    exact absurd (congrArg keyArea heq) (ne_of_lt (hla.trans hba))
  simp only [get_keys]
  rw [boundsScan_no_exact (width * height) g (boundsInit g).1 (boundsInit g).2
    hnoex]
  show (if _ = _ then _ else _) = _
  rw [hlow, hhigh, if_neg hne]

lemma row_price_at_rung (prices : List ℤ) (i : ℕ) (hi : i < 7) :
    row_price_at prices (numbering_list.getD i 0) =
      ((prices.getD i 0 : ℤ) : ℚ) := by
  unfold row_price_at
  rw [quantity_bounds_rung i hi]
  unfold get_interpolation
  rw [if_pos rfl]

lemma window_length (width : ℕ) (f : ℕ → ℕ) :
    ∀ (n s : ℕ),
      ((List.range n).filterMap (fun bit =>
        if s + bit < width then some (f bit) else none)).length =
        min n (width - s) := by
  intro n
  induction n with
  | zero =>
    intro s
    simp
  | succ m ih =>
    intro s
    rw [List.range_succ, List.filterMap_append, List.length_append, ih s]
    simp only [List.filterMap_cons, List.filterMap_nil]
    by_cases h : s + m < width
    · rw [if_pos h]
      simp only [List.length_cons, List.length_nil]
      omega
    · rw [if_neg h]
      simp only [List.length_nil]
      omega

lemma bmp_row_bits_length (width : ℕ) (bs : List ℕ)
    (hlen : bs.length = bmp_row_size width) :
    (bmp_row_bits width bs).length = width := by
  unfold bmp_row_bits
  rw [List.length_flatten, List.map_map]
  have hcong : (List.range bs.length).map
      ((fun l : List ℕ => l.length) ∘ (fun x =>
        (List.range 8).filterMap (fun bit =>
          if x * 8 + bit < width then
            some (if bs.getD x 0 &&& (1 <<< (7 - bit)) ≠ 0 then 1 else 0)
          else none))) =
      (List.range bs.length).map (fun x => min 8 (width - x * 8)) := by
    refine List.map_congr_left ?_
    intro x _
    exact window_length width _ 8 (x * 8)
  rw [hcong]
  have hsum : ∀ (n : ℕ),
      ((List.range n).map (fun x => min 8 (width - x * 8))).sum =
        min (8 * n) width := by
    intro n
    induction n with
    | zero => simp
    | succ m ihn =>
      rw [List.range_succ, List.map_append, List.sum_append, ihn]
      simp only [List.map_cons, List.map_nil, List.sum_cons, List.sum_nil]
      omega
  rw [hsum]
  unfold bmp_row_size at hlen
  omega

lemma bmp_row_bits_mem (width : ℕ) (bs : List ℕ) :
    ∀ x ∈ bmp_row_bits width bs, x = 0 ∨ x = 1 := by
  intro x hx
  unfold bmp_row_bits at hx
  rw [List.mem_flatten] at hx
  obtain ⟨l, hl, hxl⟩ := hx
  rw [List.mem_map] at hl
  obtain ⟨i, _, rfl⟩ := hl
  rw [List.mem_filterMap] at hxl
  obtain ⟨bit, _, hsome⟩ := hxl
  split at hsome
  · rw [Option.some_inj] at hsome
    subst hsome
    split
    · right
      rfl
    · left
      rfl
  · cases hsome

lemma count_zero_one_length :
    ∀ (l : List ℕ), (∀ x ∈ l, x = 0 ∨ x = 1) →
      l.count 1 + l.count 0 = l.length := by
  intro l
  induction l with
  | nil => intro _; rfl
  | cons hd tl ih =>
    intro h
    have htl := ih fun x hx => h x (List.mem_cons_of_mem hd hx)
    rcases h hd (List.mem_cons_self hd tl) with rfl | rfl
    · rw [List.count_cons_of_ne (by decide) tl, List.count_cons_self,
        List.length_cons]
      omega
    · rw [List.count_cons_self, List.count_cons_of_ne (by decide) tl,
        List.length_cons]
      omega

lemma foldl_add_count (f : List ℕ → ℕ) :
    ∀ (pd : List (List ℕ)) (acc : ℕ),
      pd.foldl (fun a row => a + f row) acc = acc + (pd.map f).sum := by
  intro pd
  induction pd with
  | nil =>
    intro acc
    simp
  | cons hd tl ih =>
    intro acc
    rw [List.foldl_cons, ih, List.map_cons, List.sum_cons]
    omega

lemma counts_sum_of_rows (width : ℕ) :
    ∀ (pd : List (List ℕ)),
      (∀ row ∈ pd, (row : List ℕ).count 1 + row.count 0 = width) →
      (count_pixels pd).1 + (count_pixels pd).2 = width * pd.length := by
  intro pd hrows
  unfold count_pixels
  rw [foldl_add_count _ pd 0, foldl_add_count _ pd 0]
  simp only [Nat.zero_add]
  induction pd with
  | nil => simp
  | cons hd tl ih =>
    simp only [List.map_cons, List.sum_cons, List.length_cons]
    have h1 := hrows hd (List.mem_cons_self hd tl)
    have h2 := ih fun row hr => hrows row (List.mem_cons_of_mem hd hr)
    rw [Nat.mul_add, Nat.mul_one]
    omega

/-!
## Claim theorems
-/

/-- C3: `get_interpolation` returns `y1` when the two reference points
are identical (no division by zero is attempted), and for reference
points with distinct integer x-coordinates and any integer point
`x1 ≤ p ≤ x2` the swapped-weight formula
`d1*y2 + d2*y1` equals standard linear interpolation
`y1 + (p-x1)*(y2-y1)/(x2-x1)`. -/
theorem C3_interpolation_primitive (p x1 x2 : ℤ) (y0 y1 y2 : ℚ)
    (hne : x1 ≠ x2) (hl : x1 ≤ p) (hr : p ≤ x2) :
    get_interpolation p (x1, y0) (x1, y0) = y0 ∧
    get_interpolation p (x1, y1) (x2, y2) =
      y1 + ((p : ℚ) - (x1 : ℚ)) * (y2 - y1) / ((x2 : ℚ) - (x1 : ℚ)) := by
  constructor
  · unfold get_interpolation
    simp
  · have hx : x1 < x2 := lt_of_le_of_ne (hl.trans hr) hne
    have hne' : ((x1 : ℤ), y1) ≠ ((x2 : ℤ), y2) := by
      intro hcontra
      exact hne (congrArg Prod.fst hcontra)
    have h1 : |p - x1| = p - x1 := abs_of_nonneg (by omega)
    have h2 : |p - x2| = x2 - p := by
      rw [abs_sub_comm]
      exact abs_of_nonneg (by omega)
    have h3 : |x2 - x1| = x2 - x1 := abs_of_nonneg (by omega)
    have hden : ((x2 : ℚ) - (x1 : ℚ)) ≠ 0 := by
      have : (x1 : ℚ) < (x2 : ℚ) := by exact_mod_cast hx
      linarith
    simp only [get_interpolation, if_neg hne', h1, h2, h3]
    push_cast
    field_simp
    ring

/-- C3 witness: the degenerate case at `(2, 7)` and the interior case at
`p = 3` between `(2, 10)` and `(4, 20)`. -/
theorem C3_interpolation_primitive_witness :
    get_interpolation 3 (2, (7 : ℚ)) (2, 7) = 7 ∧
    get_interpolation 3 (2, (10 : ℚ)) (4, 20) =
      10 + ((3 : ℚ) - 2) * (20 - 10) / ((4 : ℚ) - 2) :=
  C3_interpolation_primitive 3 2 4 7 10 20 (by decide) (by decide) (by decide)

/-- C4: evaluation at the failing input.  Sheet with usable width 90 and
height 50, item 10×40.  In the second orientation the code packs
`2 × 5 = 10` items, the leftover-width guard `90 - 2*40 ≥ 10` holds, but
the extra band is computed from the sheet **height**:
`⌊(50 - 2*40)/10⌋ * ⌊50/40⌋ = -3`, giving 7 — while the claimed rule
(leftover of the usable **width**) gives `10 + ⌊(90-80)/10⌋*⌊50/40⌋ =
11`. -/
theorem C4_figure_2_band_uses_sheet_height :
    figure_2 90 50 10 40 = 7 ∧ figure_2_claimed 90 50 10 40 = 11 := by
  constructor
  · norm_num [figure_2]
  · norm_num [figure_2_claimed]

/-- C5 counterexample: for a material absent from the depth-profile
mapping the lookup error is caught and logged and the method returns
Python `None` — no `ConfigurationError` is surfaced to the caller. -/
theorem C5_counterexample_swallows_error :
    depth_calculate none (some 5) = PyResult.returnedNone := rfl

/-- C5 (amended): whenever the requested material is absent from the
depth-profile mapping, or any profile field or the depth argument is
non-numeric, `depth_calculate` catches the resulting
`KeyError`/`TypeError`/`ValueError`, logs it, and returns `None` (no
usable result); no `ConfigurationError` or other exception reaches the
caller in these cases. -/
theorem C5_error_swallowed_returns_none (profile : Option (List (Option ℚ)))
    (d : Option ℚ)
    (h : profile = none ∨ ∃ fs, profile = some fs ∧ (none ∈ fs ∨ d = none)) :
    depth_calculate profile d = PyResult.returnedNone := by
  rcases h with h | ⟨fs, hfs, h⟩
  · subst h
    rfl
  · subst hfs
    show (if fs.any (fun f => f.isNone) then _ else _) = _
    rcases h with hmem | hd
    · rw [if_pos (List.any_eq_true.mpr ⟨none, hmem, by simp⟩)]
    · subst hd
      by_cases hany : fs.any (fun f => f.isNone) = true
      · rw [if_pos hany]
      · rw [if_neg hany]

/-- C5 witness: a profile with a non-numeric first field. -/
theorem C5_error_swallowed_returns_none_witness :
    depth_calculate (some [none, some 3]) (some 4) = PyResult.returnedNone :=
  C5_error_swallowed_returns_none (some [none, some 3]) (some 4)
    (Or.inr ⟨[none, some 3], rfl, Or.inl (by simp)⟩)

/-- C6: for a material profile `(a, b)` with step depth `a > 0` and a
positive integer pass count `b`, and a requested depth that is exactly
`k·a`: for `k = 1` the plan has an empty refocus list and `b` total
passes; for `k ≥ 2` it has `k·b` total passes and refocus list
`[k-1, b, a, b]` — the full-step count is decremented and the ending
step carries a full step's pass count. -/
theorem C6_exact_multiple_plan (a : ℚ) (b k : ℕ)
    (ha : 0 < a) (hb : 0 < b) (hk : 1 ≤ k) :
    (k = 1 →
      depth_calculate (some [some a, some (b : ℚ)]) (some ((k : ℚ) * a)) =
        PyResult.val ("Смена фокуса не требуется!", (b : ℚ), [])) ∧
    (2 ≤ k →
      depth_calculate (some [some a, some (b : ℚ)]) (some ((k : ℚ) * a)) =
        PyResult.val ("Требуется смена фокуса!", (k : ℚ) * (b : ℚ),
          [(k : ℚ) - 1, (b : ℚ), a, (b : ℚ)])) := by
  constructor
  · intro hk1
    subst hk1
    rw [show (((1 : ℕ) : ℚ)) * a = a by norm_num]
    show (if a = 0 then _ else if a ≤ a then _ else _) = _
    rw [if_neg ha.ne', if_pos le_rfl]
    have hab : a / a * (b : ℚ) = ((b : ℤ) : ℚ) := by
      rw [div_self ha.ne', one_mul]
      norm_num
    rw [hab, pyTrunc_intCast]
    norm_cast
  · intro hk2
    have hklt : ¬ ((k : ℚ) * a ≤ a) := by
      have h2 : (2 : ℚ) ≤ (k : ℚ) := by exact_mod_cast hk2
      nlinarith
    show (if a = 0 then _ else if (k : ℚ) * a ≤ a then _ else _) = _
    rw [if_neg ha.ne', if_neg hklt]
    have hfl : ⌊(k : ℚ) * a / a⌋ = (k : ℤ) := by
      rw [mul_div_assoc, div_self ha.ne', mul_one]
      rw [show ((k : ℚ)) = ((k : ℤ) : ℚ) by push_cast; ring, Int.floor_intCast]
    simp only [hfl]
    have hrem : (k : ℚ) * a - a * ((k : ℤ) : ℚ) = 0 := by
      push_cast
      ring
    rw [hrem, if_pos rfl]
    have hz : pyTrunc ((0 : ℚ) / a * (b : ℚ)) = 0 := by
      rw [zero_div, zero_mul]
      exact_mod_cast pyTrunc_intCast 0
    rw [hz, pyTrunc_natCast]
    push_cast
    norm_num

/-- C6 witness: profile `(2, 3)`; depth `2·2 = 4` exercises the `k ≥ 2`
branch with total passes `6` and plan `[1, 3, 2, 3]`. -/
theorem C6_exact_multiple_plan_witness :
    ((2 : ℕ) = 1 →
      depth_calculate (some [some 2, some ((3 : ℕ) : ℚ)])
        (some (((2 : ℕ) : ℚ) * 2)) =
        PyResult.val ("Смена фокуса не требуется!", ((3 : ℕ) : ℚ), [])) ∧
    (2 ≤ (2 : ℕ) →
      depth_calculate (some [some 2, some ((3 : ℕ) : ℚ)])
        (some (((2 : ℕ) : ℚ) * 2)) =
        PyResult.val ("Требуется смена фокуса!",
          (((2 : ℕ) : ℚ)) * (((3 : ℕ) : ℚ)),
          [((2 : ℕ) : ℚ) - 1, ((3 : ℕ) : ℚ), 2, ((3 : ℕ) : ℚ)])) :=
  C6_exact_multiple_plan 2 3 2 (by norm_num) (by decide) (by decide)

/-- C7: evaluation at the failing input (a non-numeric area, which makes
the first comparison raise `TypeError` inside the guarded block).  The
linear method's handler returns the fallback `1.0`, but the quadratic
method's handler has no `return` statement: the caller receives `None`,
not the neutral ratio 1 the policy prescribes. -/
theorem C7_polynomial_fallback_missing :
    get_linear_ratio ⟨4900, 40000, 3, 1⟩ none = some 1 ∧
    get_polynomial_ratio ⟨15000, 272000, 3, 1⟩ none = none := by
  constructor <;> rfl

/-- C8: `round_result` implements exactly the claimed tiered policy
(nearest 50 above 800, nearest 10 in [250, 800), nearest 5 in [85, 250),
truncation below), and in scenario C (base cost 1000, quantity 1, gang
size 1, every ratio 1, discount 0) the unit cost 1000 is in the ≥ 800
tier, rounds to 1000, and the order total is `1000 * 1 = 1000`. -/
theorem C8_tiered_rounding (cost : ℚ) :
    round_result cost = roundPolicySpec cost ∧
    (800 : ℚ) ≤ main_cost 0 1000 scenarioC ∧
    round_result (main_cost 0 1000 scenarioC) = nearestMultiple 50 1000 ∧
    calc_totals 0 1000 scenarioC 1 0 = (1000, 1000) := by
  have hm : main_cost 0 1000 scenarioC = 1000 := by
    norm_num [main_cost, scenarioC, ratio_discount]
  refine ⟨?_, by rw [hm]; norm_num, ?_, ?_⟩
  · unfold round_result roundPolicySpec nearestMultiple
    rw [show (((50 : ℤ)) : ℚ) = 50 by norm_num,
      show (((10 : ℤ)) : ℚ) = 10 by norm_num,
      show (((5 : ℤ)) : ℚ) = 5 by norm_num]
    by_cases h1 : cost ≥ 800
    · rw [if_pos h1, if_pos h1]
    · rw [if_neg h1, if_neg h1]
      by_cases h2 : (250 : ℚ) ≤ cost
      · rw [if_pos ⟨h2, lt_of_not_ge h1⟩, if_pos h2]
      · rw [if_neg (by tauto), if_neg h2]
        by_cases h3 : (85 : ℚ) ≤ cost
        · rw [if_pos ⟨h3, lt_of_not_ge h2⟩, if_pos h3]
        · rw [if_neg (by tauto), if_neg h3]
  · rw [hm]
    norm_num [round_result, nearestMultiple, pyRound]
  · unfold calc_totals
    rw [hm]
    norm_num [round_result, pyRound]

/-- C9: an item with positive dimensions strictly exceeding the sheet in
both directions packs zero in both orientations, and no exception
escapes: with nonzero dimensions the floor divisions cannot raise (the
caught `ZeroDivisionError` branch, embedded as the leading guard, is not
entered), and the leftover-strip band contributes nothing. -/
theorem C9_oversized_item_zero (sw sh w h : ℚ)
    (hw : 0 < w) (hh : 0 < h) (hsw : 0 ≤ sw) (hsh : 0 ≤ sh)
    (hbw : sw < w) (hbh : sh < h) :
    figure_1 (sw * 0.9) sh w h = 0 ∧ figure_2 (sw * 0.9) sh w h = 0 := by
  have h09 : (0.9 : ℚ) = 9 / 10 := by norm_num
  have husable : sw * 0.9 ≤ sw := by
    rw [h09]
    nlinarith
  have husable0 : 0 ≤ sw * 0.9 := by
    rw [h09]
    nlinarith
  constructor
  · unfold figure_1
    rw [if_neg (by push_neg; exact ⟨hw.ne', hh.ne'⟩)]
    have hrows : ⌊sw * 0.9 / w⌋ = 0 :=
      floor_div_eq_zero husable0 hw (lt_of_le_of_lt husable hbw)
    have hcols : ⌊sh / h⌋ = 0 := floor_div_eq_zero hsh hh hbh
    simp only [hrows, hcols, Int.cast_zero, zero_mul, mul_zero, sub_zero]
    split_ifs with hguard
    · have hshw : sh < w := by
        calc sh < h := hbh
        _ ≤ sw * 0.9 := hguard
        _ ≤ sw := husable
        _ < w := hbw
      rw [floor_div_eq_zero hsh hw hshw]
      ring
    · rfl
  · unfold figure_2
    rw [if_neg (by push_neg; exact ⟨hh.ne', hw.ne'⟩)]
    have hshh : ⌊sh / h⌋ = 0 := floor_div_eq_zero hsh hh hbh
    have hprod : ⌊sw * 0.9 / h⌋ * ⌊sh / w⌋ = 0 := by
      by_cases hcase : h ≤ sw * 0.9
      · have hshw : sh < w := by
          calc sh < h := hbh
          _ ≤ sw * 0.9 := hcase
          _ ≤ sw := husable
          _ < w := hbw
        rw [floor_div_eq_zero hsh hw hshw, mul_zero]
      · rw [floor_div_eq_zero husable0 hh (lt_of_not_ge hcase), zero_mul]
    simp only [hprod, hshh, mul_zero, add_zero]
    split_ifs <;> rfl

/-- C1: for a well-formed cost grid, if `width*height` exactly equals
the area encoded in some row key and the quantity is exactly the
quantity-ladder rung at index `i`, then `get_cost` returns that row's
tabulated price at that rung, with no interpolation drift. -/
theorem C1_exact_match (g : CostGrid) (kv : RowKey × List ℤ)
    (height width num : ℤ) (i : ℕ)
    (hwf : WellFormedGrid g) (hmem : kv ∈ g)
    (harea : width * height = keyArea kv.1)
    (hi : i < 7) (hnum : num = numbering_list.getD i 0) :
    get_cost g height width num = ((kv.2.getD i 0 : ℤ) : ℚ) := by
  subst hnum
  unfold get_cost
  rw [get_keys_exact g kv height width hwf.2 hmem (by rw [← harea]; ring)]
  show row_price_at (lookup_costs g kv.1) (numbering_list.getD i 0) = _
  rw [lookup_costs_self g kv hwf.2 hmem]
  exact row_price_at_rung kv.2 i hi

/-- C1 witness: scenario B — the grid row `"small, 50, 30"` with prices
`[10,20,30,40,50,60,70]`, queried at height 30, width 50, quantity 5
(ladder index 1), yields exactly 20. -/
theorem C1_exact_match_witness :
    get_cost [(⟨"small", 50, 30⟩, [10, 20, 30, 40, 50, 60, 70])] 30 50 5 =
      (20 : ℚ) := by
  rw [C1_exact_match [(⟨"small", 50, 30⟩, [10, 20, 30, 40, 50, 60, 70])]
    (⟨"small", 50, 30⟩, [10, 20, 30, 40, 50, 60, 70]) 30 50 5 1
    (by constructor
        · decide
        · decide)
    (by decide) (by decide) (by decide) (by decide)]
  norm_num

/-- C2: for a well-formed cost grid and a query whose area lies strictly
between the catalogued row areas bounding it and matches no row
exactly, `get_cost` equals the two-stage bilinear reference: both
bounding rows are interpolated on the quantity axis at the requested
quantity, then those two prices are interpolated on the area axis at
the query area. -/
theorem C2_bilinear (g : CostGrid) (kvl kvb : RowKey × List ℤ)
    (height width num : ℤ)
    (hwf : WellFormedGrid g) (hl : kvl ∈ g) (hb : kvb ∈ g)
    (hla : keyArea kvl.1 < width * height)
    (hba : width * height < keyArea kvb.1)
    (hnoex : ∀ kv ∈ g, keyArea (kv : RowKey × List ℤ).1 ≠ width * height)
    (hmax : ∀ kv ∈ g, keyArea (kv : RowKey × List ℤ).1 < width * height →
      keyArea kv.1 ≤ keyArea kvl.1)
    (hmin : ∀ kv ∈ g, width * height < keyArea (kv : RowKey × List ℤ).1 →
      keyArea kvb.1 ≤ keyArea kv.1) :
    get_cost g height width num =
      bilinear_reference g kvl.1 kvb.1 (width * height) num := by
  simp only [mul_comm width height] at hla hba hnoex hmax hmin
  unfold get_cost
  rw [get_keys_pair g kvl kvb height width hwf.2 hl hb hla hba hnoex hmax hmin]
  show get_interpolation (width * height) _ _ = _
  unfold bilinear_reference
  rfl

/-- C2 witness: rows of areas 100 and 400, query 15×10 (area 150),
quantity 5. -/
theorem C2_bilinear_witness :
    get_cost [(⟨"a", 10, 10⟩, [10, 20, 30, 40, 50, 60, 70]),
        (⟨"b", 20, 20⟩, [100, 200, 300, 400, 500, 600, 700])] 10 15 5 =
      bilinear_reference
        [(⟨"a", 10, 10⟩, [10, 20, 30, 40, 50, 60, 70]),
          (⟨"b", 20, 20⟩, [100, 200, 300, 400, 500, 600, 700])]
        ⟨"a", 10, 10⟩ ⟨"b", 20, 20⟩ (15 * 10) 5 :=
  C2_bilinear
    [(⟨"a", 10, 10⟩, [10, 20, 30, 40, 50, 60, 70]),
      (⟨"b", 20, 20⟩, [100, 200, 300, 400, 500, 600, 700])]
    (⟨"a", 10, 10⟩, [10, 20, 30, 40, 50, 60, 70])
    (⟨"b", 20, 20⟩, [100, 200, 300, 400, 500, 600, 700])
    10 15 5
    (by constructor
        · decide
        · decide)
    (by decide) (by decide) (by decide) (by decide) (by decide) (by decide)
    (by decide)

/-- C9 witness: sheet 100×50, item 200×100. -/
theorem C9_oversized_item_zero_witness :
    figure_1 ((100 : ℚ) * 0.9) 50 200 100 = 0 ∧
    figure_2 ((100 : ℚ) * 0.9) 50 200 100 = 0 :=
  C9_oversized_item_zero 100 50 200 100 (by norm_num) (by norm_num)
    (by norm_num) (by norm_num) (by norm_num) (by norm_num)

/-- C10: for a monochrome BMP parsed without error (the pixel-array
region holds all `height` rows of `row_size + padding` bytes), every
decoded pixel row has exactly `width` entries — the trailing padding
bits of each row are discarded — and `count_pixels` returns a pair
`(white, black)` with `white + black = width * height`. -/
theorem C10_pixel_row_width_and_count (width height : ℕ) (data : List ℕ)
    (hdata : height * (bmp_row_size width + bmp_padding width) ≤
      data.length) :
    (∀ row ∈ read_pixel_rows width height data,
      (row : List ℕ).length = width) ∧
    (count_pixels (read_pixel_rows width height data)).1 +
      (count_pixels (read_pixel_rows width height data)).2 =
      width * height := by
  have hrowlen : ∀ row ∈ read_pixel_rows width height data,
      (row : List ℕ).length = width := by
    intro row hrow
    unfold read_pixel_rows at hrow
    rw [List.mem_map] at hrow
    obtain ⟨y, hy, rfl⟩ := hrow
    rw [List.mem_range] at hy
    apply bmp_row_bits_length
    rw [List.length_take, List.length_drop]
    refine inf_eq_left.mpr ?_
    have hmul : (y + 1) * (bmp_row_size width + bmp_padding width) ≤
        height * (bmp_row_size width + bmp_padding width) :=
      Nat.mul_le_mul_right _ (by omega)
    rw [Nat.add_mul, Nat.one_mul] at hmul
    omega
  refine ⟨hrowlen, ?_⟩
  have hc : ∀ row ∈ read_pixel_rows width height data,
      (row : List ℕ).count 1 + row.count 0 = width := by
    intro row hrow
    have hmem01 : ∀ x ∈ row, x = 0 ∨ x = 1 := by
      have hrow' := hrow
      unfold read_pixel_rows at hrow'
      rw [List.mem_map] at hrow'
      obtain ⟨y, _, rfl⟩ := hrow'
      exact bmp_row_bits_mem width _
    rw [count_zero_one_length row hmem01]
    exact hrowlen row hrow
  rw [counts_sum_of_rows width _ hc]
  unfold read_pixel_rows
  rw [List.length_map, List.length_range]

/-- C10 witness: a 3×2 image stored as two 4-byte-aligned rows
(`0b10100000` and `0b01100000`): each row decodes to 3 pixels and the
counts sum to 6. -/
theorem C10_pixel_row_width_and_count_witness :
    (∀ row ∈ read_pixel_rows 3 2 [160, 0, 0, 0, 96, 0, 0, 0],
      (row : List ℕ).length = 3) ∧
    (count_pixels (read_pixel_rows 3 2 [160, 0, 0, 0, 96, 0, 0, 0])).1 +
      (count_pixels (read_pixel_rows 3 2 [160, 0, 0, 0, 96, 0, 0, 0])).2 =
      3 * 2 :=
  C10_pixel_row_width_and_count 3 2 [160, 0, 0, 0, 96, 0, 0, 0] (by decide)

end Razoom
